import Mathlib

/-!
Verification of the SU2 gradient-smoothing core (files
`SU2_CFD/src/numerics_gradient_smoothing.cpp`, `Common/src/element_structure.cpp`,
`SU2_CFD/src/solver_gradient_smoothing.cpp`).

The C++ is shallowly embedded over `ℚ`.  Per-element data prepared by
`clearElement` / `ComputeGrad_*` (quadrature weights, Jacobian values, physical
shape-function gradients, shape values) is a record of total functions; the
imperative accumulation loops become folds over the explicit list of loop
iterations, and the raw nested arrays become curried functions guarded by the
index bounds the C++ loops use.  A few one-line accessors that live in headers
outside this excerpt (`Add_HiHj`, `CSysMatrix::AddBlock` / `SetBlock`) are
modelled from the spec and marked as such.
-/

/-- Four-index accumulator `DHiDHj[iNode][jNode][iDim][jDim]` (and the global
block matrix): node, node, dim, dim to value. -/
abbrev Acc4 := ℕ → ℕ → ℕ → ℕ → ℚ

/-- Two-index accumulator `HiHj[iNode][jNode]`. -/
abbrev Acc2 := ℕ → ℕ → ℚ

/-- A single `nDim × nDim` block. -/
abbrev Blk := ℕ → ℕ → ℚ

/-- An element as `CGradSmoothing::Compute_Tangent_Matrix` sees it after
`clearElement(true)` and `ComputeGrad_Linear`: node and Gauss-point counts and
the per-Gauss-point data returned by `GetWeight`, `GetJ_X`, `GetGradNi_X` and
`GetNi` (`numerics_gradient_smoothing.cpp` lines 104-121, 174-178). -/
structure ElemGauss where
  nNode : ℕ
  nGauss : ℕ
  weight : ℕ → ℚ
  jacX : ℕ → ℚ
  gradNiX : ℕ → ℕ → ℕ → ℚ
  ni : ℕ → ℕ → ℚ

/-- `nDimGlobal` of `Compute_Tangent_Matrix` lines 95-96: `nDim`, or `nDim+1`
when the configuration smooths on a curved surface. -/
def nDimGlobalOf (surface : Bool) (nDim : ℕ) : ℕ :=
  if surface then nDim + 1 else nDim

/-- The accumulated scalar `GradNiXGradNj` of lines 140-142: the dot product of
the two nodes' physical gradients over `nDimGlobal` dimensions. -/
def gradNiDot (E : ElemGauss) (g i j nG : ℕ) : ℚ :=
  ∑ d ∈ Finset.range nG, E.gradNiX i g d * E.gradNiX j g d

/-- The local matrix `val_DHiDHj` built at lines 144-152: the scalar
`Weight * Jac_X * epsilon * epsilon * GradNiXGradNj` on the diagonal, zero
off the diagonal. -/
def valDHiDHjMat (w jX eps dot : ℚ) : Blk :=
  fun d e => if d = e then w * jX * eps * eps * dot else 0

/-- `CElement::Add_DHiDHj` (`element_structure.cpp` lines 379-388):
`DHiDHj[nodeA][nodeB][iDim][jDim] += val[iDim][jDim]` for `iDim, jDim < nDim`. -/
def add_DHiDHj (nDim : ℕ) (acc : Acc4) (val : Blk) (a b : ℕ) : Acc4 :=
  fun n m d e =>
    if n = a ∧ m = b ∧ d < nDim ∧ e < nDim then acc n m d e + val d e
    else acc n m d e

/-- `CElement::Add_DHiDHj_T` (`element_structure.cpp` lines 390-399): the same
accumulation with the transposed block, `+= val[jDim][iDim]`. -/
def add_DHiDHj_T (nDim : ℕ) (acc : Acc4) (val : Blk) (a b : ℕ) : Acc4 :=
  fun n m d e =>
    if n = a ∧ m = b ∧ d < nDim ∧ e < nDim then acc n m d e + val e d
    else acc n m d e

/-- Modelled from the spec: `CElement::Add_HiHj` is declared in the element
header, which is not part of this excerpt; per the spec's mass pass it
accumulates the scalar into `HiHj[i][j]`. -/
def add_HiHj (acc : Acc2) (val : ℚ) (a b : ℕ) : Acc2 :=
  fun n m => if n = a ∧ m = b then acc n m + val else acc n m

/-- One iteration `(iGauss, iShape, jShape)` of the stiffness pass
(lines 135-164): build `val_DHiDHj`, `Add_DHiDHj` at `(iShape, jShape)`, and
`Add_DHiDHj_T` at `(jShape, iShape)` when the nodes differ. -/
def stiffStep (E : ElemGauss) (surface : Bool) (nDim : ℕ) (eps : ℚ)
    (acc : Acc4) (t : ℕ × ℕ × ℕ) : Acc4 :=
  let val := valDHiDHjMat (E.weight t.1) (E.jacX t.1) eps
      (gradNiDot E t.1 t.2.1 t.2.2 (nDimGlobalOf surface nDim))
  let acc1 := add_DHiDHj nDim acc val t.2.1 t.2.2
  if t.2.1 ≠ t.2.2 then add_DHiDHj_T nDim acc1 val t.2.2 t.2.1 else acc1

/-- The iteration space of the stiffness pass: Gauss points crossed with node
pairs `iShape ≤ jShape < nNode` (the `for (jShape = iShape; ...)` loop). -/
def stiffPairs (nGauss nNode : ℕ) : List (ℕ × ℕ × ℕ) :=
  (List.range nGauss).flatMap fun g =>
    (List.range nNode).flatMap fun i =>
      ((List.range nNode).filter fun j => decide (i ≤ j)).map fun j => (g, i, j)

/-- One iteration `(iGauss, iShape, jShape)` of the mass pass (lines 181-186):
`Add_HiHj (Weight * Jac_X * zeta * Ni_Vec[iShape] * Ni_Vec[jShape])` where
`Ni_Vec[s] = GetNi(s, iGauss)`. -/
def massStep (E : ElemGauss) (zeta : ℚ) (acc : Acc2) (t : ℕ × ℕ × ℕ) : Acc2 :=
  add_HiHj acc (E.weight t.1 * E.jacX t.1 * zeta * E.ni t.2.1 t.1 * E.ni t.2.2 t.1)
    t.2.1 t.2.2

/-- The iteration space of the mass pass: Gauss points crossed with all ordered
node pairs. -/
def massPairs (nGauss nNode : ℕ) : List (ℕ × ℕ × ℕ) :=
  (List.range nGauss).flatMap fun g =>
    (List.range nNode).flatMap fun i =>
      (List.range nNode).map fun j => (g, i, j)

/-- The `DHiDHj` accumulator produced by `Compute_Tangent_Matrix`: the
stiffness pass run from the all-zero state left by `clearElement(true)`
(`element_structure.cpp` lines 421-432). -/
def computeTangent_DHiDHj (E : ElemGauss) (surface : Bool) (nDim : ℕ)
    (eps : ℚ) : Acc4 :=
  (stiffPairs E.nGauss E.nNode).foldl (stiffStep E surface nDim eps)
    fun _ _ _ _ => 0

/-- The `HiHj` accumulator produced by `Compute_Tangent_Matrix`: the mass pass
run from the all-zero state left by `clearElement(true)`. -/
def computeTangent_HiHj (E : ElemGauss) (zeta : ℚ) : Acc2 :=
  (massPairs E.nGauss E.nNode).foldl (massStep E zeta) fun _ _ => 0

/-- Pointwise increment contributed by one stiffness iteration: the direct
add at `(iShape, jShape)` plus, for distinct nodes, the transposed add at
`(jShape, iShape)`. -/
def stiffContrib (E : ElemGauss) (surface : Bool) (nDim : ℕ) (eps : ℚ)
    (t : ℕ × ℕ × ℕ) : Acc4 :=
  fun n m d e =>
    (if n = t.2.1 ∧ m = t.2.2 ∧ d < nDim ∧ e < nDim then
        valDHiDHjMat (E.weight t.1) (E.jacX t.1) eps
          (gradNiDot E t.1 t.2.1 t.2.2 (nDimGlobalOf surface nDim)) d e
      else 0)
    + (if t.2.1 ≠ t.2.2 ∧ n = t.2.2 ∧ m = t.2.1 ∧ d < nDim ∧ e < nDim then
        valDHiDHjMat (E.weight t.1) (E.jacX t.1) eps
          (gradNiDot E t.1 t.2.1 t.2.2 (nDimGlobalOf surface nDim)) e d
      else 0)

/-- Pointwise increment contributed by one mass iteration. -/
def massContrib (E : ElemGauss) (zeta : ℚ) (t : ℕ × ℕ × ℕ) : Acc2 :=
  fun n m =>
    if n = t.2.1 ∧ m = t.2.2 then
      E.weight t.1 * E.jacX t.1 * zeta * E.ni t.2.1 t.1 * E.ni t.2.2 t.1
    else 0

/-- The property claim C1 states of `Compute_Tangent_Matrix`, at a node pair
`i ≤ j` and dimension pair `(d, e)`: the stiffness block `DHiDHj[i][j]` is the
quadrature sum of `w·J·epsilon²·(GradNi_X · GradNj_X)` times the identity, the
block at `(j, i)` is its transpose, and `HiHj` at both `(i, j)` and `(j, i)` is
the quadrature sum of `w·J·zeta·Ni·Nj`. -/
def tangentMatrixClaim (E : ElemGauss) (surface : Bool) (nDim : ℕ)
    (eps zeta : ℚ) (i j d e : ℕ) : Prop :=
  computeTangent_DHiDHj E surface nDim eps i j d e
      = (if d = e then
          ∑ g ∈ Finset.range E.nGauss, E.weight g * E.jacX g * eps * eps *
            gradNiDot E g i j (nDimGlobalOf surface nDim)
        else 0)
  ∧ computeTangent_DHiDHj E surface nDim eps j i d e
      = computeTangent_DHiDHj E surface nDim eps i j e d
  ∧ computeTangent_HiHj E zeta i j
      = ∑ g ∈ Finset.range E.nGauss,
          E.weight g * E.jacX g * zeta * E.ni i g * E.ni j g
  ∧ computeTangent_HiHj E zeta j i
      = ∑ g ∈ Finset.range E.nGauss,
          E.weight g * E.jacX g * zeta * E.ni j g * E.ni i g

/-- A small concrete prepared element (two nodes, one Gauss point) used to
instantiate the tangent-matrix theorem. -/
def tangentWitnessElem : ElemGauss where
  nNode := 2
  nGauss := 1
  weight := fun _ => 1
  jacX := fun _ => 1
  gradNiX := fun i _ d => (i : ℚ) + d + 1
  ni := fun i _ => (i : ℚ) + 1

/-- Modelled from the spec: `CSysMatrix::AddBlock`, the sparse-matrix
collaborator used by `Compute_StiffMatrix`, scatter-adds an `nVar×nVar` block
into the global block matrix at `(a, b)`. -/
def addBlock (nVar : ℕ) (M : Acc4) (a b : ℕ) (blk : Blk) : Acc4 :=
  fun n m d e =>
    if n = a ∧ m = b ∧ d < nVar ∧ e < nVar then M n m d e + blk d e
    else M n m d e

/-- The block `Jacobian_ij` built at `solver_gradient_smoothing.cpp`
lines 225-230: the element stiffness block `DHiDHj[i][j]` with the mass scalar
`HiHj` subtracted on the diagonal. -/
def jacobianIJBlock (DH : Blk) (hh : ℚ) : Blk :=
  fun d e => DH d e - if d = e then hh else 0

/-- Iteration space of the per-element scatter loop of `Compute_StiffMatrix`
(lines 217-234): all ordered local node pairs. -/
def scatterSteps (NelNodes : ℕ) : List (ℕ × ℕ) :=
  (List.range NelNodes).flatMap fun i =>
    (List.range NelNodes).map fun j => (i, j)

/-- The per-element scatter of `Compute_StiffMatrix`: for every local node pair
`(iNode, jNode)` form `Jacobian_ij` from the element accumulators and add it to
the global matrix at `(indexNode[iNode], indexNode[jNode])`, starting from the
global matrix `M` accumulated so far. -/
def scatterStiff (nVar NelNodes : ℕ) (indexNode : ℕ → ℕ) (DH : Acc4)
    (hh : Acc2) (M : Acc4) : Acc4 :=
  (scatterSteps NelNodes).foldl
    (fun M t => addBlock nVar M (indexNode t.1) (indexNode t.2)
      (jacobianIJBlock (DH t.1 t.2) (hh t.1 t.2))) M

/-- State of the global linear system owned by `CGradientSmoothingSolver`:
the block matrix `Jacobian`, the RHS `LinSysRes` and the solution `LinSysSol`
(vectors indexed point-major, dimension-minor). -/
structure SysState where
  mat : Acc4
  res : ℕ → ℕ → ℚ
  sol : ℕ → ℕ → ℚ

/-- Modelled from the spec: `CSysMatrix::SetBlock`, the sparse-matrix
collaborator used by `BC_Dirichlet`, overwrites the `nVar×nVar` block at
`(a, b)`. -/
def setBlock (nVar : ℕ) (M : Acc4) (a b : ℕ) (blk : Blk) : Acc4 :=
  fun n m d e => if n = a ∧ m = b ∧ d < nVar ∧ e < nVar then blk d e else M n m d e

/-- Modelled from the spec: `CSysVector::SetBlock` overwrites the `nVar`
entries of point `a`. -/
def setVecBlock (nVar : ℕ) (V : ℕ → ℕ → ℚ) (a : ℕ) (vals : ℕ → ℚ) :
    ℕ → ℕ → ℚ :=
  fun n d => if n = a ∧ d < nVar then vals d else V n d

/-- The identity block `mId_Aux` built in the solver constructor
(`solver_gradient_smoothing.cpp` lines 91-104). -/
def mId_Aux : Blk := fun d e => if d = e then 1 else 0

/-- The zero block `mZeros_Aux` built in the solver constructor. -/
def mZeros_Aux : Blk := fun _ _ => 0

/-- `BC_Dirichlet` body for an owned (domain) node `p` (lines 345-377): zero
the RHS and solution blocks at `p`, write the identity block at `(p, p)` and
zero blocks down the rest of column `p`, then zero the off-diagonal blocks of
row `p`. -/
def bcDirichletOwned (nDim nPoint : ℕ) (st : SysState) (p : ℕ) : SysState where
  mat :=
    (List.range nPoint).foldl
      (fun M v => if p ≠ v then setBlock nDim M p v mZeros_Aux else M)
      ((List.range nPoint).foldl
        (fun M v => setBlock nDim M v p (if v = p then mId_Aux else mZeros_Aux))
        st.mat)
  res := setVecBlock nDim st.res p fun _ => 0
  sol := setVecBlock nDim st.sol p fun _ => 0

/-- `BC_Dirichlet` body for a halo (non-domain) node `p` (lines 379-385): zero
the whole column `p` of blocks; the row, RHS and solution are untouched. -/
def bcDirichletHalo (nDim nPoint : ℕ) (st : SysState) (p : ℕ) : SysState :=
  { st with
    mat := (List.range nPoint).foldl
      (fun M v => setBlock nDim M v p mZeros_Aux) st.mat }

/-- One vertex of the `BC_Dirichlet` marker loop: branch on node ownership
(`GetDomain`, line 345). -/
def dirichletVertex (nDim nPoint : ℕ) (owned : ℕ → Bool) (st : SysState)
    (p : ℕ) : SysState :=
  if owned p = true then bcDirichletOwned nDim nPoint st p
  else bcDirichletHalo nDim nPoint st p

/-- `CGradientSmoothingSolver::BC_Dirichlet`: the loop over the vertices of a
marker. -/
def BC_Dirichlet (nDim nPoint : ℕ) (owned : ℕ → Bool) (st : SysState)
    (verts : List ℕ) : SysState :=
  verts.foldl (dirichletVertex nDim nPoint owned) st

/-- What claim C3 asserts after the Dirichlet treatment of an owned node `k`:
RHS and solution entries at `k` are zero, the diagonal block of row `k` is the
identity, and every other block of row `k` and of column `k` is zero. -/
def dirichletOwnedPost (nDim nPoint : ℕ) (st1 : SysState) (k : ℕ) : Prop :=
  (∀ d, d < nDim → st1.res k d = 0 ∧ st1.sol k d = 0)
  ∧ (∀ d e, d < nDim → e < nDim → st1.mat k k d e = if d = e then 1 else 0)
  ∧ (∀ q, q < nPoint → q ≠ k → ∀ d e, d < nDim → e < nDim →
      st1.mat k q d e = 0 ∧ st1.mat q k d e = 0)

/-- What claim C3 asserts after the Dirichlet treatment of a halo node `k`:
only column `k` of blocks is zeroed; everything else, including the RHS and
the solution, is unchanged. -/
def dirichletHaloPost (nDim nPoint : ℕ) (st st1 : SysState) (k : ℕ) : Prop :=
  (∀ q, q < nPoint → ∀ d e, d < nDim → e < nDim → st1.mat q k d e = 0)
  ∧ (∀ a b d e, b ≠ k → st1.mat a b d e = st.mat a b d e)
  ∧ st1.res = st.res ∧ st1.sol = st.sol

/-- A boundary marker as `Impose_BC` sees it: its Sobolev-BC config flag and
its vertex list. -/
structure MarkerBC where
  sobolevBC : Bool
  verts : List ℕ

/-- `CGradientSmoothingSolver::BC_Neumann` (lines 392-394): the body is empty,
no action at all. -/
def BC_Neumann (st : SysState) : SysState := st

/-- `CGradientSmoothingSolver::Impose_BC` (lines 312-330): for every marker,
if its Sobolev-BC flag is NO run `BC_Dirichlet` on it, and if the flag is YES
run `BC_Neumann` on it. -/
def Impose_BC (nDim nPoint : ℕ) (owned : ℕ → Bool) (st : SysState)
    (markers : List MarkerBC) : SysState :=
  markers.foldl
    (fun s mk =>
      let s1 := if mk.sobolevBC = false then
          BC_Dirichlet nDim nPoint owned s mk.verts
        else s
      if mk.sobolevBC = true then BC_Neumann s1 else s1)
    st

/-- The claim's reading of the boundary-condition dispatch: the Dirichlet
treatment is applied exactly to the markers whose flag is NO, and nothing else
happens. -/
def imposeDirichletOnNoMarkers (nDim nPoint : ℕ) (owned : ℕ → Bool)
    (st : SysState) (markers : List MarkerBC) : SysState :=
  markers.foldl
    (fun s mk =>
      if mk.sobolevBC = false then BC_Dirichlet nDim nPoint owned s mk.verts
      else s)
    st

/-- A concrete system state (constant entries) used to instantiate the
boundary-condition theorems. -/
def bcWitnessState : SysState where
  mat := fun _ _ _ _ => 2
  res := fun _ _ => 3
  sol := fun _ _ => 4

/-- Mesh cell topology tags (`GetVTK_Type`) that `Compute_StiffMatrix` and
`Compute_Residual` compare against: the six supported volume topologies plus
`line`, a tag none of the comparisons match. -/
inductive VTKType where
  | line
  | triangle
  | quadrilateral
  | tetrahedron
  | pyramid
  | prism
  | hexahedron
deriving DecidableEq

/-- Element-container kinds `EL_TRIA` … `EL_HEXA` selected by the dispatch.
The source stores the kind as an `int` initialised to `0`; `tria` is the kind
sitting in container slot `0` for the 2D container built by the solver
constructor (lines 65-68). -/
inductive ElKind where
  | tria
  | quad
  | tetra
  | hexa
  | pyram
  | prism
deriving DecidableEq

/-- The topology dispatch of `Compute_StiffMatrix` lines 191-196: six
independent `if`s with no default branch, each overwriting
`(nNodes, EL_KIND)`; a tag matching none of them leaves the pair untouched. -/
def elemDispatch (t : VTKType) (p : ℕ × ElKind) : ℕ × ElKind :=
  let p1 := if t = VTKType.triangle then (3, ElKind.tria) else p
  let p2 := if t = VTKType.quadrilateral then (4, ElKind.quad) else p1
  let p3 := if t = VTKType.tetrahedron then (4, ElKind.tetra) else p2
  let p4 := if t = VTKType.pyramid then (5, ElKind.pyram) else p3
  let p5 := if t = VTKType.prism then (6, ElKind.prism) else p4
  if t = VTKType.hexahedron then (8, ElKind.hexa) else p5

/-- The `(nNodes, EL_KIND)` pair each element of the mesh loop is assembled
with: the dispatch threads the pair from element to element, starting from the
initial values `nNodes = 0`, `EL_KIND = 0` (lines 175, 178). -/
def dispatchStatesAux (p : ℕ × ElKind) : List VTKType → List (ℕ × ElKind)
  | [] => []
  | t :: ts => elemDispatch t p :: dispatchStatesAux (elemDispatch t p) ts

/-- The per-element dispatch states over a whole mesh's tag list. -/
def dispatchStates (tags : List VTKType) : List (ℕ × ElKind) :=
  dispatchStatesAux (0, ElKind.tria) tags

/-- The value the residual statement at `solver_gradient_smoothing.cpp`
lines 302-303 assigns: the expression ends at the stray statement terminator
after `GetNi`, so it is `Weight · Jac_X · Ni` — the sensitivity factor is cut
off. -/
def residualStatementValue (w jX ni : ℚ) : ℚ := w * jX * ni

/-- The per-node integrand claim C5 (and the spec's AssembleResidual) calls
for: `weight · J · Ni(node) · sensitivity(node)`. -/
def l2ProjectionIntegrand (w jX ni sens : ℚ) : ℚ := w * jX * ni * sens

/-- Length of each `GradNi_Ref_Mat` row allocated by the `CGradSmoothing`
constructor (`numerics_gradient_smoothing.cpp` line 61): `nDim` entries. -/
def gradNiRefMatRowLen (nDim : ℕ) : ℕ := nDim

/-- The `iDim` indices `Compute_Tangent_Matrix` writes into each
`GradNi_Ref_Mat` row (lines 119-123): the loop bound is `nDimGlobal`. -/
def gradNiRefMatWriteDims (surface : Bool) (nDim : ℕ) : List ℕ :=
  List.range (nDimGlobalOf surface nDim)

/-- The 3×2 edge-vector Jacobian of the curved-surface overload
`ComputeGrad_2D(Coord)` (`element_structure.cpp` lines 633-637):
`Jacobian[iDim][jVertex] = Coord[jVertex+1][iDim] − Coord[0][iDim]`. -/
def surfJacobian (C : ℕ → ℕ → ℚ) (i v : ℕ) : ℚ := C (v + 1) i - C 0 i

/-- The normal-equation matrix `JTJ` (lines 639-646):
`JTJ[i][j] = Σ_k Jacobian[k][i]·Jacobian[k][j]` over the three ambient
dimensions. -/
def surfJTJ (C : ℕ → ℕ → ℚ) (i j : ℕ) : ℚ :=
  ∑ k ∈ Finset.range 3, surfJacobian C k i * surfJacobian C k j

/-- `detJacobian` (line 649): the 2×2 determinant of `JTJ`; its square root is
stored as the Gauss point's surface Jacobian (lines 651-653). -/
def surfDetJTJ (C : ℕ → ℕ → ℚ) : ℚ :=
  surfJTJ C 0 0 * surfJTJ C 1 1 - surfJTJ C 0 1 * surfJTJ C 1 0

/-- `JTJinv` (lines 657-661): the explicit 2×2 inverse of `JTJ`. -/
def surfJTJinv (C : ℕ → ℕ → ℚ) (i j : ℕ) : ℚ :=
  if i = 0 ∧ j = 0 then surfJTJ C 1 1 / surfDetJTJ C
  else if i = 1 ∧ j = 1 then surfJTJ C 0 0 / surfDetJTJ C
  else if i = 0 ∧ j = 1 then -surfJTJ C 0 1 / surfDetJTJ C
  else if i = 1 ∧ j = 0 then -surfJTJ C 1 0 / surfDetJTJ C
  else 0

/-- `Jdagger` (lines 663-672): `Jdagger[i][j] = Σ_k JTJinv[i][k]·Jacobian[j][k]`,
i.e. the 2×3 matrix `(JᵀJ)⁻¹·Jᵀ`. -/
def surfJdagger (C : ℕ → ℕ → ℚ) (i j : ℕ) : ℚ :=
  ∑ k ∈ Finset.range 2, surfJTJinv C i k * surfJacobian C j k

/-- `GradOut` stored as the physical gradient (lines 674-683):
`GradOut[iDim] = Σ_j Jdagger[j][iDim]·dNiXj[iGauss][iShape][j]`. -/
def surfGradOut (C : ℕ → ℕ → ℚ) (dN : ℕ → ℚ) (i : ℕ) : ℚ :=
  ∑ j ∈ Finset.range 2, surfJdagger C j i * dN j

/-- The edge-vector Jacobian as a Mathlib 3×2 matrix, for the spec-side
pseudo-inverse statement. -/
def surfJmat (C : ℕ → ℕ → ℚ) : Matrix (Fin 3) (Fin 2) ℚ :=
  Matrix.of fun i v => surfJacobian C i.val v.val

/-- The 2×1 edge-vector Jacobian of the curve overload `ComputeGrad_1D(Coord)`
(lines 534-535). -/
def curveJacobian (C : ℕ → ℕ → ℚ) (i : ℕ) : ℚ := C 1 i - C 0 i

/-- The scalar `JTJ` of the curve overload (line 536); its square root is the
stored Jacobian (lines 537-541). -/
def curveJTJ (C : ℕ → ℕ → ℚ) : ℚ :=
  curveJacobian C 0 * curveJacobian C 0 + curveJacobian C 1 * curveJacobian C 1

/-- The stored gradient of the curve overload (lines 543-548):
`val_grad = Jacobian[iDim]·dNiXj/JTJ`. -/
def curveGrad (C : ℕ → ℕ → ℚ) (dN : ℚ) (i : ℕ) : ℚ :=
  curveJacobian C i * dN / curveJTJ C

/-- The curve Jacobian as a Mathlib 2×1 matrix. -/
def curveJmat (C : ℕ → ℕ → ℚ) : Matrix (Fin 2) (Fin 1) ℚ :=
  Matrix.of fun i _ => curveJacobian C i.val

/-- Concrete coordinates of a triangle embedded in 3D, used to instantiate the
pseudo-inverse theorem: nodes `(0,0,0)`, `(1,0,0)`, `(0,1,1)`. -/
def surfWitnessCoords : ℕ → ℕ → ℚ :=
  fun n d =>
    if n = 1 ∧ d = 0 then 1
    else if n = 2 ∧ (d = 1 ∨ d = 2) then 1
    else 0

/-- The reference Jacobian built by `ComputeGrad_2D` (lines 569-576) and
`ComputeGrad_3D` (lines 703-710) at one Gauss point:
`Jacobian[iDim][jDim] = Σ_nodes Coord[n][jDim] · dNiXj[n][iDim]` (the stored
matrix is the transpose of `dX/dξ`). -/
def jacRef (nNodes : ℕ) (C dN : ℕ → ℕ → ℚ) (i j : ℕ) : ℚ :=
  ∑ n ∈ Finset.range nNodes, C n j * dN n i

/-- The 2×2 adjugate `ad` (lines 580-581). -/
def ad2D (nNodes : ℕ) (C dN : ℕ → ℕ → ℚ) (i j : ℕ) : ℚ :=
  if i = 0 ∧ j = 0 then jacRef nNodes C dN 1 1
  else if i = 0 ∧ j = 1 then -jacRef nNodes C dN 0 1
  else if i = 1 ∧ j = 0 then -jacRef nNodes C dN 1 0
  else if i = 1 ∧ j = 1 then jacRef nNodes C dN 0 0
  else 0

/-- `detJac` of `ComputeGrad_2D` (line 585): `ad00·ad11 − ad01·ad10`. -/
def detJac2D (nNodes : ℕ) (C dN : ℕ → ℕ → ℚ) : ℚ :=
  ad2D nNodes C dN 0 0 * ad2D nNodes C dN 1 1
    - ad2D nNodes C dN 0 1 * ad2D nNodes C dN 1 0

/-- `TrafoJacobi` (lines 588-589): the absolute value of the cross product of
the two corner edge vectors `Coord[1]−Coord[0]` and `Coord[2]−Coord[0]`. -/
def trafoJacobi (C : ℕ → ℕ → ℚ) : ℚ :=
  |(C 1 0 - C 0 0) * (C 2 1 - C 0 1) - (C 2 0 - C 0 0) * (C 1 1 - C 0 1)|

/-- The Jacobian value `ComputeGrad_2D` stores at the Gauss point
(lines 591-595): `TrafoJacobi` in REFERENCE mode, `detJac` in CURRENT mode. -/
def jX2DStored (reference : Bool) (nNodes : ℕ) (C dN : ℕ → ℕ → ℚ) : ℚ :=
  if reference then trafoJacobi C else detJac2D nNodes C dN

/-- The physical gradient stored by `ComputeGrad_2D` (lines 599-616):
`GradNi_Xj[i] = Σ_j (ad[i][j]/detJac)·dNiXj[n][j]`. -/
def grad2D (nNodes : ℕ) (C dN : ℕ → ℕ → ℚ) (n i : ℕ) : ℚ :=
  ∑ j ∈ Finset.range 2, ad2D nNodes C dN i j / detJac2D nNodes C dN * dN n j

/-- The 3×3 adjugate `ad` of `ComputeGrad_3D` (lines 714-722). -/
def ad3D (nNodes : ℕ) (C dN : ℕ → ℕ → ℚ) (i j : ℕ) : ℚ :=
  if i = 0 ∧ j = 0 then
    jacRef nNodes C dN 1 1 * jacRef nNodes C dN 2 2
      - jacRef nNodes C dN 1 2 * jacRef nNodes C dN 2 1
  else if i = 0 ∧ j = 1 then
    jacRef nNodes C dN 0 2 * jacRef nNodes C dN 2 1
      - jacRef nNodes C dN 0 1 * jacRef nNodes C dN 2 2
  else if i = 0 ∧ j = 2 then
    jacRef nNodes C dN 0 1 * jacRef nNodes C dN 1 2
      - jacRef nNodes C dN 0 2 * jacRef nNodes C dN 1 1
  else if i = 1 ∧ j = 0 then
    jacRef nNodes C dN 1 2 * jacRef nNodes C dN 2 0
      - jacRef nNodes C dN 1 0 * jacRef nNodes C dN 2 2
  else if i = 1 ∧ j = 1 then
    jacRef nNodes C dN 0 0 * jacRef nNodes C dN 2 2
      - jacRef nNodes C dN 0 2 * jacRef nNodes C dN 2 0
  else if i = 1 ∧ j = 2 then
    jacRef nNodes C dN 0 2 * jacRef nNodes C dN 1 0
      - jacRef nNodes C dN 0 0 * jacRef nNodes C dN 1 2
  else if i = 2 ∧ j = 0 then
    jacRef nNodes C dN 1 0 * jacRef nNodes C dN 2 1
      - jacRef nNodes C dN 1 1 * jacRef nNodes C dN 2 0
  else if i = 2 ∧ j = 1 then
    jacRef nNodes C dN 0 1 * jacRef nNodes C dN 2 0
      - jacRef nNodes C dN 0 0 * jacRef nNodes C dN 2 1
  else if i = 2 ∧ j = 2 then
    jacRef nNodes C dN 0 0 * jacRef nNodes C dN 1 1
      - jacRef nNodes C dN 0 1 * jacRef nNodes C dN 1 0
  else 0

/-- `detJac` of `ComputeGrad_3D` (line 726):
`J00·ad00 + J01·ad10 + J02·ad20`. -/
def detJac3D (nNodes : ℕ) (C dN : ℕ → ℕ → ℚ) : ℚ :=
  jacRef nNodes C dN 0 0 * ad3D nNodes C dN 0 0
    + jacRef nNodes C dN 0 1 * ad3D nNodes C dN 1 0
    + jacRef nNodes C dN 0 2 * ad3D nNodes C dN 2 0

/-- The physical gradient stored by `ComputeGrad_3D` (lines 741-752). -/
def grad3D (nNodes : ℕ) (C dN : ℕ → ℕ → ℚ) (n i : ℕ) : ℚ :=
  ∑ j ∈ Finset.range 3, ad3D nNodes C dN i j / detJac3D nNodes C dN * dN n j

/-- Modelled from the spec: the parametric shape-derivative table of the
linear-triangle element family (`CTRIA1`), supplied by the element-family
tables external to this excerpt — the standard P1 derivatives
`dN0 = (−1,−1)`, `dN1 = (1,0)`, `dN2 = (0,1)`. -/
def triaDNiXj : ℕ → ℕ → ℚ :=
  fun n d =>
    if n = 0 then -1
    else if n = 1 then (if d = 0 then 1 else 0)
    else if n = 2 then (if d = 1 then 1 else 0)
    else 0

/-- The standard P1 tetrahedron shape-derivative table, used as a concrete
witness input: `dN0 = (−1,−1,−1)`, `dN1 = e1`, `dN2 = e2`, `dN3 = e3`. -/
def tetraDNiXj : ℕ → ℕ → ℚ :=
  fun n d =>
    if n = 0 then -1
    else if n = 1 then (if d = 0 then 1 else 0)
    else if n = 2 then (if d = 1 then 1 else 0)
    else if n = 3 then (if d = 2 then 1 else 0)
    else 0

/-- Canonical reference triangle coordinates `(0,0)`, `(1,0)`, `(0,1)`. -/
def triaRefCoords : ℕ → ℕ → ℚ :=
  fun n d => if n = 1 ∧ d = 0 then 1 else if n = 2 ∧ d = 1 then 1 else 0

/-- Canonical reference tetrahedron coordinates. -/
def tetraRefCoords : ℕ → ℕ → ℚ :=
  fun n d =>
    if n = 1 ∧ d = 0 then 1
    else if n = 2 ∧ d = 1 then 1
    else if n = 3 ∧ d = 2 then 1
    else 0

theorem foldl_add_four {α : Type} (step : Acc4 → α → Acc4) (c : α → Acc4)
    (hstep : ∀ acc x n m d e, step acc x n m d e = acc n m d e + c x n m d e)
    (l : List α) (init : Acc4) (n m d e : ℕ) :
    l.foldl step init n m d e = init n m d e + (l.map fun x => c x n m d e).sum := by
  induction l generalizing init with
  | nil => simp
  | cons x xs ih =>
      rw [List.foldl_cons, ih, hstep, List.map_cons, List.sum_cons]
      ring

theorem foldl_add_two {α : Type} (step : Acc2 → α → Acc2) (c : α → Acc2)
    (hstep : ∀ acc x n m, step acc x n m = acc n m + c x n m)
    (l : List α) (init : Acc2) (n m : ℕ) :
    l.foldl step init n m = init n m + (l.map fun x => c x n m).sum := by
  induction l generalizing init with
  | nil => simp
  | cons x xs ih =>
      rw [List.foldl_cons, ih, hstep, List.map_cons, List.sum_cons]
      ring

theorem sum_map_flatMap {α β : Type} (l : List α) (f : α → List β) (g : β → ℚ) :
    ((l.flatMap f).map g).sum = (l.map fun a => ((f a).map g).sum).sum := by
  induction l with
  | nil => simp
  | cons a as ih => simp [ih]

theorem sum_map_range (n : ℕ) (f : ℕ → ℚ) :
    ((List.range n).map f).sum = ∑ i ∈ Finset.range n, f i := by
  induction n with
  | zero => simp
  | succ k ih =>
      rw [List.range_succ, List.map_append, List.sum_append, ih,
        Finset.sum_range_succ]
      simp

theorem sum_map_filter_range (n : ℕ) (p : ℕ → Prop) [DecidablePred p]
    (f : ℕ → ℚ) :
    (((List.range n).filter fun j => decide (p j)).map f).sum
      = ∑ j ∈ Finset.range n, if p j then f j else 0 := by
  induction n with
  | zero => simp
  | succ k ih =>
      rw [List.range_succ, List.filter_append, List.map_append, List.sum_append,
        ih, Finset.sum_range_succ]
      by_cases hp : p k <;> simp [hp]

theorem ite_split_add (c : Prop) [Decidable c] (a b : ℚ) :
    (if c then a + b else 0) = (if c then a else 0) + (if c then b else 0) := by
  split_ifs <;> simp

theorem add_DHiDHj_apply (nDim : ℕ) (acc : Acc4) (val : Blk) (a b n m d e : ℕ) :
    add_DHiDHj nDim acc val a b n m d e
      = acc n m d e + (if n = a ∧ m = b ∧ d < nDim ∧ e < nDim then val d e else 0) := by
  unfold add_DHiDHj
  by_cases h : n = a ∧ m = b ∧ d < nDim ∧ e < nDim <;> simp [h]

theorem add_DHiDHj_T_apply (nDim : ℕ) (acc : Acc4) (val : Blk) (a b n m d e : ℕ) :
    add_DHiDHj_T nDim acc val a b n m d e
      = acc n m d e + (if n = a ∧ m = b ∧ d < nDim ∧ e < nDim then val e d else 0) := by
  unfold add_DHiDHj_T
  by_cases h : n = a ∧ m = b ∧ d < nDim ∧ e < nDim <;> simp [h]

theorem stiffStep_apply (E : ElemGauss) (surface : Bool) (nDim : ℕ) (eps : ℚ) :
    ∀ (acc : Acc4) (t : ℕ × ℕ × ℕ) (n m d e : ℕ),
      stiffStep E surface nDim eps acc t n m d e
        = acc n m d e + stiffContrib E surface nDim eps t n m d e := by
  intro acc t n m d e
  unfold stiffStep stiffContrib
  by_cases hij : t.2.1 ≠ t.2.2
  · rw [if_pos hij, add_DHiDHj_T_apply, add_DHiDHj_apply]
    simp only [hij, ne_eq, not_false_eq_true, true_and]
    ring
  · rw [if_neg hij, add_DHiDHj_apply]
    push_neg at hij
    simp [hij]

theorem massStep_apply (E : ElemGauss) (zeta : ℚ) :
    ∀ (acc : Acc2) (t : ℕ × ℕ × ℕ) (n m : ℕ),
      massStep E zeta acc t n m = acc n m + massContrib E zeta t n m := by
  intro acc t n m
  unfold massStep add_HiHj massContrib
  by_cases h : n = t.2.1 ∧ m = t.2.2 <;> simp [h]

theorem stiff_fold_eq (E : ElemGauss) (surface : Bool) (nDim : ℕ) (eps : ℚ)
    (n m d e : ℕ) :
    computeTangent_DHiDHj E surface nDim eps n m d e
      = ∑ g ∈ Finset.range E.nGauss, ∑ i ∈ Finset.range E.nNode,
          ∑ j ∈ Finset.range E.nNode,
            (if i ≤ j then stiffContrib E surface nDim eps (g, i, j) n m d e else 0) := by
  unfold computeTangent_DHiDHj
  rw [foldl_add_four (stiffStep E surface nDim eps) (stiffContrib E surface nDim eps)
    (stiffStep_apply E surface nDim eps), zero_add]
  unfold stiffPairs
  simp only [sum_map_flatMap, List.map_map, Function.comp_def]
  simp only [sum_map_filter_range, sum_map_range]

theorem mass_fold_eq (E : ElemGauss) (zeta : ℚ) (n m : ℕ) :
    computeTangent_HiHj E zeta n m
      = ∑ g ∈ Finset.range E.nGauss, ∑ i ∈ Finset.range E.nNode,
          ∑ j ∈ Finset.range E.nNode, massContrib E zeta (g, i, j) n m := by
  unfold computeTangent_HiHj
  rw [foldl_add_two (massStep E zeta) (massContrib E zeta)
    (massStep_apply E zeta), zero_add]
  unfold massPairs
  simp only [sum_map_flatMap, List.map_map, Function.comp_def]
  simp only [sum_map_range]

theorem ite_and_zero (p q : Prop) [Decidable p] [Decidable q] (a : ℚ) :
    (if p ∧ q then a else 0) = if p then (if q then a else 0) else 0 := by
  by_cases hp : p
  · by_cases hq : q <;> simp [hp, hq]
  · simp [hp]

theorem stiff_inner_le (E : ElemGauss) (surface : Bool) (nDim : ℕ) (eps : ℚ)
    (g n m d e : ℕ) (hn : n < E.nNode) (hm : m < E.nNode) (hnm : n ≤ m)
    (hd : d < nDim) (he : e < nDim) :
    (∑ i ∈ Finset.range E.nNode, ∑ j ∈ Finset.range E.nNode,
        (if i ≤ j then stiffContrib E surface nDim eps (g, i, j) n m d e else 0))
      = valDHiDHjMat (E.weight g) (E.jacX g) eps
          (gradNiDot E g n m (nDimGlobalOf surface nDim)) d e := by
  have key : ∀ i j : ℕ,
      (if i ≤ j then stiffContrib E surface nDim eps (g, i, j) n m d e else 0)
        = if j = m ∧ i = n then
            valDHiDHjMat (E.weight g) (E.jacX g) eps
              (gradNiDot E g n m (nDimGlobalOf surface nDim)) d e
          else 0 := by
    intro i j
    by_cases hmatch : j = m ∧ i = n
    · obtain ⟨h1, h2⟩ := hmatch
      simp only [h1, h2]
      by_cases heq : n = m <;> simp [stiffContrib, hnm, heq, hd, he]
    · rw [if_neg hmatch]
      by_cases hle : i ≤ j
      · rw [if_pos hle]
        simp only [stiffContrib]
        have hc1 : ¬(n = i ∧ m = j ∧ d < nDim ∧ e < nDim) := by
          rintro ⟨hni, hmj, -⟩
          exact hmatch ⟨hmj.symm, hni.symm⟩
        have hc2 : ¬(i ≠ j ∧ n = j ∧ m = i ∧ d < nDim ∧ e < nDim) := by
          rintro ⟨hne, hnj, hmi, -⟩
          omega
        rw [if_neg hc1, if_neg hc2, add_zero]
      · rw [if_neg hle]
  simp [key, ite_and_zero, hm, hn]

theorem stiff_inner_gt (E : ElemGauss) (surface : Bool) (nDim : ℕ) (eps : ℚ)
    (g n m d e : ℕ) (hn : n < E.nNode) (hm : m < E.nNode) (hmn : m < n)
    (hd : d < nDim) (he : e < nDim) :
    (∑ i ∈ Finset.range E.nNode, ∑ j ∈ Finset.range E.nNode,
        (if i ≤ j then stiffContrib E surface nDim eps (g, i, j) n m d e else 0))
      = valDHiDHjMat (E.weight g) (E.jacX g) eps
          (gradNiDot E g m n (nDimGlobalOf surface nDim)) e d := by
  have key : ∀ i j : ℕ,
      (if i ≤ j then stiffContrib E surface nDim eps (g, i, j) n m d e else 0)
        = if j = n ∧ i = m then
            valDHiDHjMat (E.weight g) (E.jacX g) eps
              (gradNiDot E g m n (nDimGlobalOf surface nDim)) e d
          else 0 := by
    intro i j
    by_cases hmatch : j = n ∧ i = m
    · obtain ⟨h1, h2⟩ := hmatch
      simp only [h1, h2]
      simp [stiffContrib, Nat.le_of_lt hmn, hd, he, Nat.ne_of_gt hmn,
        Nat.ne_of_lt hmn]
    · rw [if_neg hmatch]
      by_cases hle : i ≤ j
      · rw [if_pos hle]
        simp only [stiffContrib]
        have hc1 : ¬(n = i ∧ m = j ∧ d < nDim ∧ e < nDim) := by
          rintro ⟨hni, hmj, -⟩
          omega
        have hc2 : ¬(i ≠ j ∧ n = j ∧ m = i ∧ d < nDim ∧ e < nDim) := by
          rintro ⟨hne, hnj, hmi, -⟩
          exact hmatch ⟨hnj.symm, hmi.symm⟩
        rw [if_neg hc1, if_neg hc2, add_zero]
      · rw [if_neg hle]
  simp [key, ite_and_zero, hm, hn]

theorem mass_inner (E : ElemGauss) (zeta : ℚ) (g n m : ℕ)
    (hn : n < E.nNode) (hm : m < E.nNode) :
    (∑ i ∈ Finset.range E.nNode, ∑ j ∈ Finset.range E.nNode,
        massContrib E zeta (g, i, j) n m)
      = E.weight g * E.jacX g * zeta * E.ni n g * E.ni m g := by
  have key : ∀ i j : ℕ,
      massContrib E zeta (g, i, j) n m
        = if j = m ∧ i = n then
            E.weight g * E.jacX g * zeta * E.ni n g * E.ni m g
          else 0 := by
    intro i j
    by_cases hmatch : j = m ∧ i = n
    · obtain ⟨h1, h2⟩ := hmatch
      simp only [h1, h2]
      simp [massContrib]
    · rw [if_neg hmatch]
      simp only [massContrib]
      rw [if_neg]
      rintro ⟨hni, hmj⟩
      exact hmatch ⟨hmj.symm, hni.symm⟩
  simp [key, ite_and_zero, hm, hn]

/-- C1: for every element prepared by `clearElement` and `ComputeGrad_Linear`,
`Compute_Tangent_Matrix` performs the two-pass local-operator algorithm — the
stiffness pass accumulates `w·J·epsilon²·(GradNi_X · GradNj_X)` times the
`nDim×nDim` identity into `DHiDHj[i][j]` for each unordered node pair `i ≤ j`
and writes the transpose into `DHiDHj[j][i]`, and the mass pass accumulates
`w·J·zeta·Ni·Nj` into `HiHj[i][j]` for every ordered node pair. -/
theorem C1_tangent (E : ElemGauss) (surface : Bool) (nDim : ℕ) (eps zeta : ℚ)
    (i j d e : ℕ) (hi : i < E.nNode) (hj : j < E.nNode) (hij : i ≤ j)
    (hd : d < nDim) (he : e < nDim) :
    tangentMatrixClaim E surface nDim eps zeta i j d e := by
  unfold tangentMatrixClaim
  refine ⟨?_, ?_, ?_, ?_⟩
  · rw [stiff_fold_eq]
    rw [Finset.sum_congr rfl fun g _ =>
      stiff_inner_le E surface nDim eps g i j d e hi hj hij hd he]
    simp only [valDHiDHjMat]
    by_cases hde : d = e <;> simp [hde]
  · rw [stiff_fold_eq, stiff_fold_eq]
    rcases Nat.lt_or_ge i j with hlt | hge
    · rw [Finset.sum_congr rfl fun g _ =>
        stiff_inner_gt E surface nDim eps g j i d e hj hi hlt hd he]
      rw [Finset.sum_congr rfl fun g _ =>
        stiff_inner_le E surface nDim eps g i j e d hi hj hij he hd]
    · have hji : i = j := Nat.le_antisymm hij hge
      subst hji
      rw [Finset.sum_congr rfl fun g _ =>
        stiff_inner_le E surface nDim eps g i i d e hi hi (Nat.le_refl i) hd he]
      rw [Finset.sum_congr rfl fun g _ =>
        stiff_inner_le E surface nDim eps g i i e d hi hi (Nat.le_refl i) he hd]
      simp only [valDHiDHjMat]
      by_cases hde : d = e <;> simp [hde, eq_comm]
  · rw [mass_fold_eq]
    exact Finset.sum_congr rfl fun g _ => mass_inner E zeta g i j hi hj
  · rw [mass_fold_eq]
    exact Finset.sum_congr rfl fun g _ => mass_inner E zeta g j i hj hi

/-- Witness for C1: the tangent-matrix theorem instantiated on a concrete
two-node element, discharging every hypothesis. -/
theorem C1_tangent_witness :
    0 < tangentWitnessElem.nNode ∧ 1 < tangentWitnessElem.nNode ∧ (0 : ℕ) ≤ 1
      ∧ (0 : ℕ) < 2 ∧ (1 : ℕ) < 2
      ∧ tangentMatrixClaim tangentWitnessElem false 2 (3/2) (5/7) 0 1 0 1 :=
  ⟨by decide, by decide, by decide, by decide, by decide,
    C1_tangent tangentWitnessElem false 2 (3/2) (5/7) 0 1 0 1 (by decide)
      (by decide) (by decide) (by decide) (by decide)⟩

theorem addBlock_apply (nVar : ℕ) (M : Acc4) (a b : ℕ) (blk : Blk)
    (n m d e : ℕ) :
    addBlock nVar M a b blk n m d e
      = M n m d e + (if n = a ∧ m = b ∧ d < nVar ∧ e < nVar then blk d e else 0) := by
  unfold addBlock
  by_cases h : n = a ∧ m = b ∧ d < nVar ∧ e < nVar <;> simp [h]

/-- C2: during `Compute_StiffMatrix`, for every local node pair `(i, j)` of an
element, the final contribution `DHiDHj[i][j] − HiHj[i][j]·Identity` is
scatter-added into the global block matrix at
`(indexNode[i], indexNode[j])` (stated against the global matrix `M`
accumulated before this element, which is how the mesh loop applies it to
every element). -/
theorem C2_scatter (nVar NelNodes : ℕ) (indexNode : ℕ → ℕ) (DH : Acc4)
    (hh : Acc2) (M : Acc4) (i j d e : ℕ) (hi : i < NelNodes) (hj : j < NelNodes)
    (hd : d < nVar) (he : e < nVar)
    (hinj : ∀ a b, a < NelNodes → b < NelNodes → indexNode a = indexNode b → a = b) :
    scatterStiff nVar NelNodes indexNode DH hh M (indexNode i) (indexNode j) d e
      = M (indexNode i) (indexNode j) d e
        + (DH i j d e - if d = e then hh i j else 0) := by
  unfold scatterStiff
  refine Eq.trans (foldl_add_four
    (fun M t => addBlock nVar M (indexNode t.1) (indexNode t.2)
      (jacobianIJBlock (DH t.1 t.2) (hh t.1 t.2)))
    (fun t n m d e =>
      if n = indexNode t.1 ∧ m = indexNode t.2 ∧ d < nVar ∧ e < nVar then
        jacobianIJBlock (DH t.1 t.2) (hh t.1 t.2) d e
      else 0)
    (fun acc t n m d e => addBlock_apply nVar acc (indexNode t.1)
      (indexNode t.2) (jacobianIJBlock (DH t.1 t.2) (hh t.1 t.2)) n m d e)
    (scatterSteps NelNodes) M (indexNode i) (indexNode j) d e) ?_
  unfold scatterSteps
  simp only [sum_map_flatMap, List.map_map, Function.comp_def]
  simp only [sum_map_range]
  have key : ∀ a b : ℕ, a < NelNodes → b < NelNodes →
      (if indexNode i = indexNode a ∧ indexNode j = indexNode b
          ∧ d < nVar ∧ e < nVar then
        jacobianIJBlock (DH a b) (hh a b) d e
      else 0)
        = if b = j ∧ a = i then jacobianIJBlock (DH i j) (hh i j) d e else 0 := by
    intro a b ha hb
    by_cases hmatch : b = j ∧ a = i
    · simp only [hmatch.1, hmatch.2]
      simp [hd, he]
    · rw [if_neg hmatch, if_neg]
      rintro ⟨hia, hjb, -⟩
      exact hmatch ⟨(hinj j b hj hb hjb).symm, (hinj i a hi ha hia).symm⟩
  rw [Finset.sum_congr rfl fun a ha => Finset.sum_congr rfl fun b hb =>
    key a b (Finset.mem_range.mp ha) (Finset.mem_range.mp hb)]
  simp [ite_and_zero, hi, hj, jacobianIJBlock]

/-- Witness for C2: scatter of one concrete two-node element block into a zero
global matrix. -/
theorem C2_scatter_witness :
    (0 : ℕ) < 2 ∧ (1 : ℕ) < 2
      ∧ scatterStiff 2 2 (fun a => a) (fun _ _ _ _ => 1) (fun _ _ => 1)
          (fun _ _ _ _ => 0) 0 1 0 0
        = 0 + (1 - if (0 : ℕ) = (0 : ℕ) then (1 : ℚ) else 0) :=
  ⟨by decide, by decide,
    C2_scatter 2 2 (fun a => a) (fun _ _ _ _ => 1) (fun _ _ => 1)
      (fun _ _ _ _ => 0) 0 1 0 0 (by decide) (by decide) (by decide) (by decide)
      (fun a b _ _ h => h)⟩

theorem setBlock_apply (nVar : ℕ) (M : Acc4) (a b : ℕ) (blk : Blk)
    (n m d e : ℕ) :
    setBlock nVar M a b blk n m d e
      = if n = a ∧ m = b ∧ d < nVar ∧ e < nVar then blk d e
        else M n m d e := rfl

theorem foldl_setBlock_col (nDim p N : ℕ) (f : ℕ → Blk) (M : Acc4)
    (a b d e : ℕ) :
    ((List.range N).foldl (fun M v => setBlock nDim M v p (f v)) M) a b d e
      = if b = p ∧ a < N ∧ d < nDim ∧ e < nDim then f a d e
        else M a b d e := by
  induction N with
  | zero => simp
  | succ k ih =>
      simp only [List.range_succ, List.foldl_append, List.foldl_cons,
        List.foldl_nil]
      rw [setBlock_apply, ih]
      split_ifs <;> first | rfl | omega | simp_all

theorem foldl_setBlock_row (nDim p N : ℕ) (M : Acc4) (a b d e : ℕ) :
    ((List.range N).foldl
        (fun M v => if p ≠ v then setBlock nDim M p v mZeros_Aux else M) M)
        a b d e
      = if a = p ∧ b < N ∧ p ≠ b ∧ d < nDim ∧ e < nDim then 0
        else M a b d e := by
  induction N with
  | zero => simp
  | succ k ih =>
      simp only [List.range_succ, List.foldl_append, List.foldl_cons,
        List.foldl_nil]
      by_cases hpk : p ≠ k
      · rw [if_pos hpk, setBlock_apply, ih]
        split_ifs <;> first | rfl | omega | simp [mZeros_Aux]
      · rw [if_neg hpk, ih]
        split_ifs <;> first | rfl | omega

/-- C3: after `BC_Dirichlet` treats a constrained node `k` that is owned by
the process, the RHS and solution entries at `k` are zero, the diagonal block
of row `k` is the identity, and every other block of row `k` and column `k` is
zero; for a halo node only the column of blocks is zeroed and the row, RHS and
solution are unchanged. -/
theorem C3_dirichlet (nDim nPoint : ℕ) (owned : ℕ → Bool) (st : SysState)
    (k : ℕ) (hk : k < nPoint) :
    (owned k = true →
      dirichletOwnedPost nDim nPoint (dirichletVertex nDim nPoint owned st k) k)
    ∧ (owned k = false →
      dirichletHaloPost nDim nPoint st
        (dirichletVertex nDim nPoint owned st k) k) := by
  constructor
  · intro how
    have hv : dirichletVertex nDim nPoint owned st k
        = bcDirichletOwned nDim nPoint st k := by
      unfold dirichletVertex
      rw [if_pos how]
    rw [hv]
    refine ⟨?_, ?_, ?_⟩
    · intro d hd
      constructor <;> simp [bcDirichletOwned, setVecBlock, hd]
    · intro d e hd he
      simp only [bcDirichletOwned]
      rw [foldl_setBlock_row, foldl_setBlock_col]
      simp [hk, hd, he, mId_Aux]
    · intro q hq hqk d e hd he
      constructor
      · simp only [bcDirichletOwned]
        rw [foldl_setBlock_row]
        simp [hq, hd, he, Ne.symm hqk]
      · simp only [bcDirichletOwned]
        rw [foldl_setBlock_row, foldl_setBlock_col]
        simp [hq, hqk, hd, he, mZeros_Aux]
  · intro how
    have hv : dirichletVertex nDim nPoint owned st k
        = bcDirichletHalo nDim nPoint st k := by
      unfold dirichletVertex
      rw [if_neg (by simp [how])]
    rw [hv]
    refine ⟨?_, ?_, rfl, rfl⟩
    · intro q hq d e hd he
      simp only [bcDirichletHalo]
      rw [foldl_setBlock_col]
      simp [hq, hd, he, mZeros_Aux]
    · intro a b d e hbk
      simp only [bcDirichletHalo]
      rw [foldl_setBlock_col]
      simp [hbk]

/-- Witness for C3: the Dirichlet theorem instantiated on a concrete two-point
system, once for an owned node and once for a halo node. -/
theorem C3_dirichlet_witness :
    (0 : ℕ) < 2 ∧ (1 : ℕ) < 2
    ∧ dirichletOwnedPost 2 2
        (dirichletVertex 2 2 (fun _ => true) bcWitnessState 0) 0
    ∧ dirichletHaloPost 2 2 bcWitnessState
        (dirichletVertex 2 2 (fun _ => false) bcWitnessState 1) 1 :=
  ⟨by decide, by decide,
   (C3_dirichlet 2 2 (fun _ => true) bcWitnessState 0 (by decide)).1 rfl,
   (C3_dirichlet 2 2 (fun _ => false) bcWitnessState 1 (by decide)).2 rfl⟩

/-- C10: `Impose_BC` applies the Dirichlet treatment exactly to the markers
whose Sobolev-BC flag is NO, the Neumann treatment — which does nothing — to
the markers whose flag is YES, and modifies nothing else. -/
theorem C10_impose_bc (nDim nPoint : ℕ) (owned : ℕ → Bool) (st : SysState)
    (markers : List MarkerBC) :
    Impose_BC nDim nPoint owned st markers
        = imposeDirichletOnNoMarkers nDim nPoint owned st markers
      ∧ ∀ s : SysState, BC_Neumann s = s := by
  constructor
  · unfold Impose_BC imposeDirichletOnNoMarkers
    congr 1
    funext s mk
    cases hbc : mk.sobolevBC <;> simp [hbc, BC_Neumann]
  · intro s
    rfl

/-- C4 counterexample: a mesh whose second element carries the unsupported
`LINE` tag is not aborted — the dispatch leaves `(nNodes, EL_KIND)` at the
values set by the previous element, so the line element is silently assembled
as a 3-node triangle; no error path exists. -/
theorem C4_counterexample :
    dispatchStates [VTKType.triangle, VTKType.line]
      = [(3, ElKind.tria), (3, ElKind.tria)] := by
  decide

/-- C4 (amended): an unsupported topology tag is not fatal — the dispatch
chain has no default branch, so the pair `(nNodes, EL_KIND)` keeps its
previous value and assembly continues with it, while each supported tag sets
its documented node count and kind. -/
theorem C4_dispatch (p : ℕ × ElKind) :
    elemDispatch VTKType.line p = p
    ∧ elemDispatch VTKType.triangle p = (3, ElKind.tria)
    ∧ elemDispatch VTKType.quadrilateral p = (4, ElKind.quad)
    ∧ elemDispatch VTKType.tetrahedron p = (4, ElKind.tetra)
    ∧ elemDispatch VTKType.pyramid p = (5, ElKind.pyram)
    ∧ elemDispatch VTKType.prism p = (6, ElKind.prism)
    ∧ elemDispatch VTKType.hexahedron p = (8, ElKind.hexa) :=
  ⟨rfl, rfl, rfl, rfl, rfl, rfl, rfl⟩

/-- C5: the residual statement diverges from the claimed L2-projection
integrand — at `Weight = 1`, `J = 1`, `Ni = 1/2`, `sensitivity = 2` the code's
truncated expression yields `1/2` while the projection integrand is `1`. -/
theorem C5_residual_divergence :
    residualStatementValue 1 1 (1/2) ≠ l2ProjectionIntegrand 1 1 (1/2) 2 := by
  norm_num [residualStatementValue, l2ProjectionIntegrand]

/-- C9: in the flat configuration every `GradNi_Ref_Mat` dimension index
written by `Compute_Tangent_Matrix` is inside the allocated row, but in the
curved-surface configuration with `nDim = 2` the loop also writes index `2`,
one past the end of the `nDim`-entry row. -/
theorem C9_oob_surface :
    (∀ d ∈ gradNiRefMatWriteDims false 2, d < gradNiRefMatRowLen 2)
    ∧ 2 ∈ gradNiRefMatWriteDims true 2
    ∧ ¬2 < gradNiRefMatRowLen 2 := by
  decide

/-- C6: in the curved-surface case the physical gradients stored by
`ComputeGrad_2D(Coord)` equal the Moore–Penrose pseudo-inverse
`(JᵀJ)⁻¹·Jᵀ` applied (as a row-vector product) to the parametric shape
derivatives, and the quantity whose square root is stored as the surface
Jacobian is `det(JᵀJ)`; the same holds for the 1D curve overload
`ComputeGrad_1D(Coord)`. -/
theorem C6_pseudoinverse (C : ℕ → ℕ → ℚ) (dN : ℕ → ℚ) (dN1 : ℚ)
    (h : surfDetJTJ C ≠ 0) (h1 : curveJTJ C ≠ 0) :
    (∀ i : Fin 3, surfGradOut C dN i.val
        = Matrix.vecMul (fun v : Fin 2 => dN v.val)
            (((surfJmat C).transpose * surfJmat C)⁻¹ * (surfJmat C).transpose) i)
    ∧ surfDetJTJ C = ((surfJmat C).transpose * surfJmat C).det
    ∧ (∀ i : Fin 2, curveGrad C dN1 i.val
        = Matrix.vecMul (fun _ : Fin 1 => dN1)
            (((curveJmat C).transpose * curveJmat C)⁻¹ * (curveJmat C).transpose) i)
    ∧ curveJTJ C = ((curveJmat C).transpose * curveJmat C).det := by
  have hdet : ((surfJmat C).transpose * surfJmat C).det = surfDetJTJ C := by
    simp [Matrix.det_fin_two, Matrix.mul_apply, Matrix.transpose_apply,
      surfJmat, surfDetJTJ, surfJTJ, Fin.sum_univ_three, Finset.sum_range_succ,
      Matrix.of_apply]
  have hcdet : ((curveJmat C).transpose * curveJmat C).det = curveJTJ C := by
    simp [Matrix.det_fin_one, Matrix.mul_apply, Matrix.transpose_apply,
      curveJmat, curveJTJ, Fin.sum_univ_two, Matrix.of_apply]
  refine ⟨?_, hdet.symm, ?_, hcdet.symm⟩
  · intro i
    rw [Matrix.inv_def, Ring.inverse_eq_inv, hdet, Matrix.adjugate_fin_two]
    fin_cases i <;>
      (simp [Matrix.vecMul, Matrix.dotProduct, Matrix.mul_apply,
        Matrix.smul_apply, Matrix.transpose_apply, surfJmat, Matrix.of_apply,
        Fin.sum_univ_two, Fin.sum_univ_three, surfGradOut, surfJdagger,
        surfJTJinv, surfJTJ, Finset.sum_range_succ, div_eq_mul_inv];
       field_simp;
       ring)
  · intro i
    rw [Matrix.inv_def, Ring.inverse_eq_inv, hcdet, Matrix.adjugate_fin_one]
    fin_cases i <;>
      (simp [Matrix.vecMul, Matrix.dotProduct, Matrix.mul_apply,
        Matrix.smul_apply, Matrix.transpose_apply, curveJmat, Matrix.of_apply,
        Fin.sum_univ_one, Fin.sum_univ_two, curveGrad, curveJTJ,
        div_eq_mul_inv];
       field_simp;
       ring)

/-- Witness for C6: the pseudo-inverse theorem instantiated on a concrete
triangle embedded in 3D with a concrete shape-derivative pair, discharging
both non-degeneracy hypotheses. -/
theorem C6_pseudoinverse_witness :
    surfDetJTJ surfWitnessCoords ≠ 0 ∧ curveJTJ surfWitnessCoords ≠ 0
      ∧ (∀ i : Fin 3, surfGradOut surfWitnessCoords (fun k => (k : ℚ) + 1) i.val
          = Matrix.vecMul (fun v : Fin 2 => ((v.val : ℚ) + 1))
              (((surfJmat surfWitnessCoords).transpose * surfJmat surfWitnessCoords)⁻¹
                * (surfJmat surfWitnessCoords).transpose) i) :=
  have hd : surfDetJTJ surfWitnessCoords ≠ 0 := by
    norm_num [surfDetJTJ, surfJTJ, surfJacobian, surfWitnessCoords,
      Finset.sum_range_succ]
  have hc : curveJTJ surfWitnessCoords ≠ 0 := by
    norm_num [curveJTJ, curveJacobian, surfWitnessCoords]
  ⟨hd, hc,
    (C6_pseudoinverse surfWitnessCoords (fun k => (k : ℚ) + 1) 1 hd hc).1⟩

/-- C7: with the linear-triangle shape-derivative table, the adjugate-based
Jacobian determinant of `ComputeGrad_2D` agrees in magnitude with the direct
edge-vector `TrafoJacobi`, and the reference-configuration Jacobian value is
populated with the direct edge-vector value. -/
theorem C7_det_consistency (C : ℕ → ℕ → ℚ)
    (h : 0 < detJac2D 3 C triaDNiXj) :
    |detJac2D 3 C triaDNiXj| = trafoJacobi C
    ∧ jX2DStored true 3 C triaDNiXj = trafoJacobi C := by
  have hval : detJac2D 3 C triaDNiXj
      = (C 1 0 - C 0 0) * (C 2 1 - C 0 1) - (C 2 0 - C 0 0) * (C 1 1 - C 0 1) := by
    simp [detJac2D, ad2D, jacRef, triaDNiXj, Finset.sum_range_succ]
    ring
  constructor
  · rw [hval]
    rfl
  · rfl

/-- Witness for C7: the determinant-consistency theorem instantiated on the
canonical right triangle. -/
theorem C7_det_consistency_witness :
    0 < detJac2D 3 triaRefCoords triaDNiXj
    ∧ (|detJac2D 3 triaRefCoords triaDNiXj| = trafoJacobi triaRefCoords
       ∧ jX2DStored true 3 triaRefCoords triaDNiXj = trafoJacobi triaRefCoords) :=
  have h : 0 < detJac2D 3 triaRefCoords triaDNiXj := by
    norm_num [detJac2D, ad2D, jacRef, triaRefCoords, triaDNiXj,
      Finset.sum_range_succ]
  ⟨h, C7_det_consistency triaRefCoords h⟩

/-- C8: when the parametric shape-derivative rows sum to zero (partition of
unity) and the element is non-degenerate, the physical gradients produced by
`ComputeGrad_2D` and `ComputeGrad_3D` sum to the zero vector over the
element's nodes. -/
theorem C8_partition_of_unity (nN2 nN3 : ℕ) (C2 dN2 C3 dN3 : ℕ → ℕ → ℚ)
    (h2 : ∀ j ∈ Finset.range 2, (∑ n ∈ Finset.range nN2, dN2 n j) = 0)
    (hdet2 : detJac2D nN2 C2 dN2 ≠ 0)
    (h3 : ∀ j ∈ Finset.range 3, (∑ n ∈ Finset.range nN3, dN3 n j) = 0)
    (hdet3 : detJac3D nN3 C3 dN3 ≠ 0) :
    (∀ i ∈ Finset.range 2,
      (∑ n ∈ Finset.range nN2, grad2D nN2 C2 dN2 n i) = 0)
    ∧ (∀ i ∈ Finset.range 3,
      (∑ n ∈ Finset.range nN3, grad3D nN3 C3 dN3 n i) = 0) := by
  constructor
  · intro i _
    unfold grad2D
    rw [Finset.sum_comm]
    apply Finset.sum_eq_zero
    intro j hj
    rw [← Finset.mul_sum, h2 j hj, mul_zero]
  · intro i _
    unfold grad3D
    rw [Finset.sum_comm]
    apply Finset.sum_eq_zero
    intro j hj
    rw [← Finset.mul_sum, h3 j hj, mul_zero]

/-- Witness for C8: partition of unity instantiated on the canonical triangle
and tetrahedron with their P1 tables. -/
theorem C8_partition_witness :
    (∀ j ∈ Finset.range 2, (∑ n ∈ Finset.range 3, triaDNiXj n j) = 0)
    ∧ detJac2D 3 triaRefCoords triaDNiXj ≠ 0
    ∧ (∀ j ∈ Finset.range 3, (∑ n ∈ Finset.range 4, tetraDNiXj n j) = 0)
    ∧ detJac3D 4 tetraRefCoords tetraDNiXj ≠ 0
    ∧ (∀ i ∈ Finset.range 2,
        (∑ n ∈ Finset.range 3, grad2D 3 triaRefCoords triaDNiXj n i) = 0)
    ∧ (∀ i ∈ Finset.range 3,
        (∑ n ∈ Finset.range 4, grad3D 4 tetraRefCoords tetraDNiXj n i) = 0) :=
  have h2 : ∀ j ∈ Finset.range 2, (∑ n ∈ Finset.range 3, triaDNiXj n j) = 0 := by
    intro j hj
    fin_cases hj <;> norm_num [triaDNiXj, Finset.sum_range_succ]
  have hd2 : detJac2D 3 triaRefCoords triaDNiXj ≠ 0 := by
    norm_num [detJac2D, ad2D, jacRef, triaRefCoords, triaDNiXj,
      Finset.sum_range_succ]
  have h3 : ∀ j ∈ Finset.range 3, (∑ n ∈ Finset.range 4, tetraDNiXj n j) = 0 := by
    intro j hj
    fin_cases hj <;> norm_num [tetraDNiXj, Finset.sum_range_succ]
  have hd3 : detJac3D 4 tetraRefCoords tetraDNiXj ≠ 0 := by
    norm_num [detJac3D, ad3D, jacRef, tetraRefCoords, tetraDNiXj,
      Finset.sum_range_succ]
  ⟨h2, hd2, h3, hd3,
    (C8_partition_of_unity 3 4 triaRefCoords triaDNiXj tetraRefCoords
      tetraDNiXj h2 hd2 h3 hd3).1,
    (C8_partition_of_unity 3 4 triaRefCoords triaDNiXj tetraRefCoords
      tetraDNiXj h2 hd2 h3 hd3).2⟩
